import Mathlib

/-!
# Verification of the crawl-api authenticated-session / content-extraction core

Shallow embedding of the algorithmic core of the repository:

* `app/platforms/xiaohongshu.py` — content-link extraction (primary regex
  cascade, fallback extraction, token cache, token round-trip through URLs);
* `app/services/auth_crawler_service.py` — login-status analysis and
  profile-path computation.

Strings are modelled as `List Char` (`Str`), matching Python `str` as a
sequence of Unicode code points.  Python's `re.findall` calls are embedded as
explicit scanners for the concrete regular expressions appearing in the
source; `urllib.parse` helpers (`urlparse`, `parse_qs`, `urlencode`,
`quote_plus`, `unquote_plus`) are embedded at the level of detail the claims
exercise.
-/

set_option maxRecDepth 4000

/-- Python strings, modelled as lists of characters. -/
abbrev Str := List Char

/-- Convert a Lean string literal into the `Str` model. -/
def str (s : String) : Str := s.data

/-- Boolean contiguous-substring test: Python's `needle in hay`. -/
def containsSub (needle : Str) : Str → Bool
  | [] => needle.isEmpty
  | c :: rest => needle.isPrefixOf (c :: rest) || containsSub needle rest

/-- Split a list on every occurrence of a separator character
(Python `s.split(sep)` for a one-character separator). -/
def splitOnChar (sep : Char) : Str → List Str
  | [] => [[]]
  | c :: rest =>
    let r := splitOnChar sep rest
    if c = sep then [] :: r
    else match r with
      | [] => [[c]]
      | s :: ss => (c :: s) :: ss

/-! ## Token cache (`XiaohongshuPlatform.__init__`, `_get_cached_token`,
`_cache_token`)

The cache is the instance attribute `self._token_cache`, a dict holding at
most the keys `"token_info"` and `"timestamp"`, and `self._cache_ttl = 300`.
`datetime.now().timestamp()` values are modelled as integers. -/

/-- A token dict (`Dict[str, str]`), modelled as an association list in
insertion order, as produced by `_extract_token_from_url`. -/
abbrev TokenDict := List (Str × Str)

/-- State of `self._token_cache`: the initial `{}` gives `token_info = none`
and (via `.get("timestamp", 0)`) `timestamp = 0`. -/
structure TokenCacheState where
  token_info : Option TokenDict
  timestamp : Int
deriving DecidableEq

/-- The initial cache `self._token_cache = {}`. -/
def tokenCacheInit : TokenCacheState := ⟨none, 0⟩

/-- `self._cache_ttl = 300` (seconds). -/
def cacheTtl : Int := 300

/-- `_cache_token`: wholesale replacement of `self._token_cache` by
`{"token_info": token_info, "timestamp": now}`. -/
def cache_token (_st : TokenCacheState) (token_info : TokenDict)
    (now : Int) : TokenCacheState :=
  ⟨some token_info, now⟩

/-- `_get_cached_token`: returns the stored token iff
`now - timestamp < ttl`, else `None`. -/
def get_cached_token (st : TokenCacheState) (now : Int) : Option TokenDict :=
  if now - st.timestamp < cacheTtl then st.token_info else none

/-! ## Login-status analysis (`AuthCrawlerService._analyze_login_status`) -/

/-- Result dict of `_analyze_login_status`: keys `status`, `message`,
`confidence`. -/
structure LoginStatus where
  status : Str
  message : Str
  confidence : Str
deriving DecidableEq

/-- Render a natural number the way Python's f-string interpolation does. -/
def natStr (n : Nat) : Str := (Nat.repr n).data

/-- ASCII lowering of one character, as applied by `str.lower()` to the
(ASCII) indicator alphabet; `Char.toLower` lowers exactly `A`–`Z`. -/
def lowerStr (s : Str) : Str := s.map Char.toLower

/-- The base `success_indicators` list. -/
def successIndicatorsBase : List Str :=
  [str "logout", str "sign out", str "profile", str "account",
   str "dashboard", str "settings", str "my account", str "user menu",
   str "welcome"]

/-- The base `login_indicators` list. -/
def loginIndicatorsBase : List Str :=
  [str "login", str "sign in", str "signin", str "log in",
   str "authenticate"]

/-- Site-specific extension of the success indicators
(`if site_name == "medium_com" ... elif site_name == "investors_com" ...`). -/
def successIndicators (site_name : Str) : List Str :=
  if site_name = str "medium_com" then
    successIndicatorsBase ++
      [str "write", str "stories", str "following", str "notifications"]
  else if site_name = str "investors_com" then
    successIndicatorsBase ++ [str "premium", str "watchlist", str "portfolio"]
  else successIndicatorsBase

/-- Site-specific extension of the login indicators. -/
def loginIndicators (site_name : Str) : List Str :=
  if site_name = str "medium_com" then
    loginIndicatorsBase ++ [str "get started", str "sign up"]
  else if site_name = str "investors_com" then
    loginIndicatorsBase ++ [str "subscribe", str "free trial"]
  else loginIndicatorsBase

/-- `success_count`: each indicator contributes 1 iff it occurs in the
lower-cased page content (`sum(1 for indicator in ... if indicator in
content_lower)`). -/
def successCount (html site_name : Str) : Nat :=
  ((successIndicators site_name).filter
    (fun ind => containsSub ind (lowerStr html))).length

/-- `login_count`, analogously. -/
def loginCount (html site_name : Str) : Nat :=
  ((loginIndicators site_name).filter
    (fun ind => containsSub ind (lowerStr html))).length

/-- The decision cascade of `_analyze_login_status` as a function of
`success_count` and `login_count`. -/
def analyzeFromCounts (success_count login_count : Nat) : LoginStatus :=
  if success_count > login_count ∧ success_count ≥ 2 then
    { status := str "success"
      message := str "登录成功 (成功指标: " ++ natStr success_count ++
        str ", 登录指标: " ++ natStr login_count ++ str ")"
      confidence := str "high" }
  else if success_count > 0 ∧ login_count = 0 then
    { status := str "likely_logged_in"
      message := str "可能已登录 (成功指标: " ++ natStr success_count ++ str ")"
      confidence := str "medium" }
  else if login_count > success_count then
    { status := str "not_logged_in"
      message := str "尚未登录 (登录指标: " ++ natStr login_count ++ str ")"
      confidence := str "high" }
  else
    { status := str "uncertain"
      message := str "无法确定登录状态"
      confidence := str "low" }

/-- `_analyze_login_status` (the pure classification; `result.html` is
passed in as `html`). -/
def analyze_login_status (html site_name : Str) : LoginStatus :=
  analyzeFromCounts (successCount html site_name) (loginCount html site_name)

/-! ## `urllib.parse` embedding

`urlencode` (with its default `quote_via=quote_plus`), `quote_plus`,
`unquote_plus`, `urlparse(...).query` and `parse_qs` as used by
`_build_note_url_with_token`, `_extract_token_from_url` and
`_extract_xiaohongshu_notes_from_html`. -/

/-- `urllib`'s always-safe alphabet for `quote_plus(s, safe='')`:
ASCII letters, digits and `_.-~`. -/
def isAlwaysSafe (c : Char) : Bool :=
  (('a' ≤ c && c ≤ 'z') || ('A' ≤ c && c ≤ 'Z') || ('0' ≤ c && c ≤ '9') ||
   c = '_' || c = '.' || c = '-' || c = '~')

/-- UTF-8 encoding of one code point, as a list of byte values. -/
def utf8Encode (c : Char) : List Nat :=
  let n := c.toNat
  if n < 0x80 then [n]
  else if n < 0x800 then [0xC0 + n / 64, 0x80 + n % 64]
  else if n < 0x10000 then
    [0xE0 + n / 4096, 0x80 + (n / 64) % 64, 0x80 + n % 64]
  else
    [0xF0 + n / 262144, 0x80 + (n / 4096) % 64, 0x80 + (n / 64) % 64,
     0x80 + n % 64]

/-- Upper-case hexadecimal digit for `0 ≤ n < 16` (percent-escapes use
upper case): code 48 is `0`, code 65 is `A`. -/
def hexDigitU (n : Nat) : Char :=
  Char.ofNat (if n < 10 then 48 + n else 55 + n)

/-- `quote_plus` on one character: safe characters pass through, a space
becomes `+`, everything else is percent-encoded byte-wise. -/
def quoteChar (c : Char) : Str :=
  if isAlwaysSafe c then [c]
  else if c = ' ' then ['+']
  else (utf8Encode c).flatMap
    (fun b => ['%', hexDigitU (b / 16), hexDigitU (b % 16)])

/-- `urllib.parse.quote_plus(s, safe='')`. -/
def quotePlus (s : Str) : Str := s.flatMap quoteChar

/-- Value of a hexadecimal digit (both cases), if any; works on the code
point (`0`–`9` are 48–57, `A`–`F` are 65–70, `a`–`f` are 97–102). -/
def hexVal (c : Char) : Option Nat :=
  if 48 ≤ c.toNat ∧ c.toNat ≤ 57 then some (c.toNat - 48)
  else if 97 ≤ c.toNat ∧ c.toNat ≤ 102 then some (c.toNat - 87)
  else if 65 ≤ c.toNat ∧ c.toNat ≤ 70 then some (c.toNat - 55)
  else none

/-- Tokenisation step of `unquote`: each valid `%XY` escape becomes a byte,
any other character stays literal (an invalid escape keeps its `%`).  Every
step consumes at least one character, so `fuel = length` reproduces the
unbounded scan. -/
def qTokensAux : Nat → Str → List (Sum Char Nat)
  | 0, _ => []
  | _ + 1, [] => []
  | fuel + 1, c :: rest =>
    if c = '%' then
      match rest with
      | c1 :: c2 :: rest2 =>
        match hexVal c1, hexVal c2 with
        | some h1, some h2 => Sum.inr (16 * h1 + h2) :: qTokensAux fuel rest2
        | _, _ => Sum.inl '%' :: qTokensAux fuel rest
      | _ => Sum.inl c :: qTokensAux fuel rest
    else Sum.inl c :: qTokensAux fuel rest

/-- The token stream of a percent-encoded string. -/
def qTokens (s : Str) : List (Sum Char Nat) := qTokensAux s.length s

/-- Whether a byte is a UTF-8 continuation byte. -/
def isCont (b : Nat) : Bool := 0x80 ≤ b && b < 0xC0

/-- Decode a byte run as UTF-8 (well-formed sequences; a malformed lead or
missing continuation byte yields U+FFFD, matching `errors='replace'`).
Every step consumes at least the lead byte, so `fuel = length` reproduces
the unbounded decoder. -/
def utf8DecodeAux : Nat → List Nat → Str
  | 0, _ => []
  | _ + 1, [] => []
  | fuel + 1, b :: bs =>
    if b < 0x80 then Char.ofNat b :: utf8DecodeAux fuel bs
    else if 0xC0 ≤ b ∧ b < 0xE0 then
      match bs with
      | b2 :: bs2 =>
        if isCont b2 then
          Char.ofNat ((b - 0xC0) * 64 + (b2 - 0x80)) :: utf8DecodeAux fuel bs2
        else Char.ofNat 0xFFFD :: utf8DecodeAux fuel bs
      | [] => [Char.ofNat 0xFFFD]
    else if 0xE0 ≤ b ∧ b < 0xF0 then
      match bs with
      | b2 :: b3 :: bs3 =>
        if isCont b2 && isCont b3 then
          Char.ofNat ((b - 0xE0) * 4096 + (b2 - 0x80) * 64 + (b3 - 0x80)) ::
            utf8DecodeAux fuel bs3
        else Char.ofNat 0xFFFD :: utf8DecodeAux fuel bs
      | _ => Char.ofNat 0xFFFD :: utf8DecodeAux fuel bs
    else if 0xF0 ≤ b ∧ b < 0xF8 then
      match bs with
      | b2 :: b3 :: b4 :: bs4 =>
        if isCont b2 && isCont b3 && isCont b4 then
          Char.ofNat ((b - 0xF0) * 262144 + (b2 - 0x80) * 4096 +
            (b3 - 0x80) * 64 + (b4 - 0x80)) :: utf8DecodeAux fuel bs4
        else Char.ofNat 0xFFFD :: utf8DecodeAux fuel bs
      | _ => Char.ofNat 0xFFFD :: utf8DecodeAux fuel bs
    else Char.ofNat 0xFFFD :: utf8DecodeAux fuel bs

/-- UTF-8 decoding of a byte run. -/
def utf8Decode (bs : List Nat) : Str := utf8DecodeAux bs.length bs

/-- Regroup the token stream: maximal runs of percent-decoded bytes are
UTF-8-decoded together (as `unquote` does), literal characters pass
through. `acc` holds the current byte run, reversed. -/
def qDecodeAux : List Nat → List (Sum Char Nat) → Str
  | acc, [] => utf8Decode acc.reverse
  | acc, Sum.inr b :: rest => qDecodeAux (b :: acc) rest
  | acc, Sum.inl c :: rest => utf8Decode acc.reverse ++ c :: qDecodeAux [] rest

/-- `urllib.parse.unquote_plus`: `+` becomes a space, then percent-escapes
are decoded. -/
def unquotePlus (s : Str) : Str :=
  qDecodeAux [] (qTokens (s.map fun c => if c = '+' then ' ' else c))

/-- `urllib.parse.urlencode(params)` over an (insertion-ordered) dict:
`k=v` chunks (quoted via `quote_plus`) joined by `&`. -/
def urlencodeAssoc : TokenDict → Str
  | [] => []
  | [kv] => quotePlus kv.1 ++ '=' :: quotePlus kv.2
  | kv :: rest =>
    quotePlus kv.1 ++ '=' :: quotePlus kv.2 ++ '&' :: urlencodeAssoc rest

/-- Character inequality as a scanning predicate. -/
def neChar (a : Char) : Char → Bool := fun c => c ≠ a

/-- The part of a URL before the first `#` (urlparse strips the fragment
before query parsing). -/
def stripFragment (url : Str) : Str := url.takeWhile (neChar '#')

/-- Everything after the first `?` of the fragment-stripped URL:
`urlparse(url).query` (empty when there is no `?`). -/
def queryOf (url : Str) : Str :=
  ((stripFragment url).dropWhile (neChar '?')).drop 1

/-- Split a `name=value` chunk at its first `=`; a chunk without `=` has no
value part. -/
def splitFirstEq (s : Str) : Str × Option Str :=
  if (s.dropWhile (neChar '=')).isEmpty then (s, none)
  else (s.takeWhile (neChar '='), some ((s.dropWhile (neChar '=')).drop 1))

/-- `urllib.parse.parse_qsl(qs)` with the default
`keep_blank_values=False`: empty chunks, chunks without `=` and chunks with
an empty value are dropped; names and values are `unquote_plus`-ed. -/
def parseQsl (qs : Str) : List (Str × Str) :=
  (splitOnChar '&' qs).filterMap fun chunk =>
    if chunk = [] then none
    else match splitFirstEq chunk with
      | (_, none) => none
      | (_, some []) => none
      | (k, some v) => some (unquotePlus k, unquotePlus v)

/-- First value stored under a key: `parse_qs(qs)[k][0]` when present
(`parse_qs` groups `parse_qsl` pairs by key, preserving order). -/
def getFirst (ps : List (Str × Str)) (k : Str) : Option Str :=
  (ps.find? fun kv => kv.1 = k).map (·.2)

/-- Key list of the grouped dict, in first-occurrence order:
`list(parse_qs(qs).keys())`. -/
def keysOf (ps : List (Str × Str)) : List Str :=
  (ps.map (·.1)).eraseDups

/-! ## Token extraction and URL construction
(`_extract_token_from_url`, `_build_note_url_with_token`) -/

/-- `_extract_token_from_url(url)`: pull `xsec_token` (required),
`xsec_source` (defaulted to `"pc_feed"`) and `channel_id` (optional) out of
the URL's query string; `None` when `xsec_token` is absent. -/
def extract_token_from_url (url : Str) : Option TokenDict :=
  let query_params := parseQsl (queryOf url)
  let token_info : TokenDict :=
    (match getFirst query_params (str "xsec_token") with
      | some v => [(str "xsec_token", v)]
      | none => []) ++
    [(str "xsec_source",
      (getFirst query_params (str "xsec_source")).getD (str "pc_feed"))] ++
    (match getFirst query_params (str "channel_id") with
      | some v => [(str "channel_id", v)]
      | none => [])
  if (token_info.map (·.1)).contains (str "xsec_token") then some token_info
  else none

/-- `_build_note_url_with_token(note_id, token_info)`: base explore URL plus
`urlencode`d params — `xsec_token` if present, `xsec_source` (defaulted to
`"pc_feed"`), `channel_id` if present. -/
def build_note_url_with_token (note_id : Str) (token_info : TokenDict) : Str :=
  let base_url := str "https://www.xiaohongshu.com/explore/" ++ note_id
  let params : TokenDict :=
    (match getFirst token_info (str "xsec_token") with
      | some v => [(str "xsec_token", v)]
      | none => []) ++
    [(str "xsec_source",
      (getFirst token_info (str "xsec_source")).getD (str "pc_feed"))] ++
    (match getFirst token_info (str "channel_id") with
      | some v => [(str "channel_id", v)]
      | none => [])
  if params ≠ [] then base_url ++ '?' :: urlencodeAssoc params
  else base_url

/-! ## Regex scanners for the extraction patterns

Each concrete regular expression of `_extract_xiaohongshu_notes_from_html`
(compiled with `re.IGNORECASE`) and `_fallback_extract_links` is embedded as
a position matcher `Str → Option (capture, rest)`; `re.findall` is the
left-to-right, non-overlapping scan over these matchers. -/

/-- Case-sensitive literal match: on success, the remainder. -/
def matchLit (pat s : Str) : Option Str :=
  if pat.isPrefixOf s then some (s.drop pat.length) else none

/-- Case-insensitive (ASCII) literal match, as under `re.IGNORECASE`;
returns the original matched text and the remainder. -/
def matchLitCI : Str → Str → Option (Str × Str)
  | [], s => some ([], s)
  | _ :: _, [] => none
  | p :: ps, c :: cs =>
    if p.toLower = c.toLower then
      (matchLitCI ps cs).map (fun pr => (c :: pr.1, pr.2))
    else none

/-- `[a-f0-9]` under `re.IGNORECASE` (so upper-case hex also matches). -/
def isHexDigitCI (c : Char) : Bool :=
  ('0' ≤ c && c ≤ '9') || ('a' ≤ c && c ≤ 'f') || ('A' ≤ c && c ≤ 'F')

/-- `[a-f0-9]` without `re.IGNORECASE` (as in
`parse_content_id_from_url`). -/
def isHexLower (c : Char) : Bool :=
  ('0' ≤ c && c ≤ '9') || ('a' ≤ c && c ≤ 'f')

/-- `p{n}`: exactly `n` characters satisfying a class. -/
def takeExact (n : Nat) (p : Char → Bool) (s : Str) : Option (Str × Str) :=
  let t := s.take n
  if t.length = n && t.all p then some (t, s.drop n) else none

/-- A single expected character (`\?`, `\)`, `"`). -/
def expectChar (c : Char) : Str → Option Str
  | x :: rest => if x = c then some rest else none
  | [] => none

/-- The literal URL head shared by the primary patterns. -/
def exploreLit : Str := str "https://www.xiaohongshu.com/explore/"

/-- Core of the primary patterns: URL head `lead`, then `[a-f0-9]{24}`,
then `\?`, then a greedy run of characters other than `stop`, then the
literal `stop`; the capture excludes the surrounding context. -/
def primCore (lead : Str) (stop : Char) (s : Str) : Option (Str × Str) := do
  let (d, r1) ← matchLitCI lead s
  let (hx, r2) ← takeExact 24 isHexDigitCI r1
  let r3 ← expectChar '?' r2
  let body := r3.takeWhile (· ≠ stop)
  let r4 ← expectChar stop (r3.dropWhile (· ≠ stop))
  pure (d ++ hx ++ '?' :: body, r4)

/-- Pattern 1: `\]\((https://www\.xiaohongshu\.com/explore/[a-f0-9]{24}\?[^)]*)\)`. -/
def p1Match (s : Str) : Option (Str × Str) := do
  let (_, r) ← matchLitCI (str "](") s
  primCore exploreLit ')' r

/-- Pattern 2: `href="(https://www\.xiaohongshu\.com/explore/[a-f0-9]{24}\?[^"]*)"`. -/
def p2Match (s : Str) : Option (Str × Str) := do
  let (_, r) ← matchLitCI (str "href=\x22") s
  primCore exploreLit '\x22' r

/-- Pattern 3: `href="(/explore/[a-f0-9]{24}\?[^"]*)"`. -/
def p3Match (s : Str) : Option (Str × Str) := do
  let (_, r) ← matchLitCI (str "href=\x22") s
  primCore (str "/explore/") '\x22' r

/-- Pattern 4: `"(https://www\.xiaohongshu\.com/explore/[a-f0-9]{24}\?[^"]*)"`. -/
def p4Match (s : Str) : Option (Str × Str) := do
  let r ← expectChar '\x22' s
  primCore exploreLit '\x22' r

/-- Pattern 5: `"(/explore/[a-f0-9]{24}\?[^"]*)"`. -/
def p5Match (s : Str) : Option (Str × Str) := do
  let r ← expectChar '\x22' s
  primCore (str "/explore/") '\x22' r

/-- `re.findall` driver: at each position try the matcher; on success emit
the capture and resume after the match, else advance one character.  All
matchers consume at least one character on success, so `s.length` steps of
fuel reproduce the unbounded scan. -/
def findAllAux (m : Str → Option (Str × Str)) : Nat → Str → List Str
  | 0, _ => []
  | _ + 1, [] => []
  | fuel + 1, c :: rest =>
    match m (c :: rest) with
    | some (cap, r) => cap :: findAllAux m fuel r
    | none => findAllAux m fuel rest

/-- `re.findall(pattern, s, re.IGNORECASE)` for an embedded matcher. -/
def findAll (m : Str → Option (Str × Str)) (s : Str) : List Str :=
  findAllAux m s.length s

/-- `parse_content_id_from_url`:
`re.search(r'/explore/([a-f0-9]+)', url)` — no `IGNORECASE` here, so only
lower-case hex counts. -/
def parse_content_id_from_url : Str → Option Str
  | [] => none
  | c :: rest =>
    match matchLit (str "/explore/") (c :: rest) with
    | some r1 =>
      let run := r1.takeWhile isHexLower
      if run = [] then parse_content_id_from_url rest else some run
    | none => parse_content_id_from_url rest

/-- Split an input at the first occurrence of `pat`, returning the part
before it and the part after it. -/
def breakAt (pat : Str) : Str → Option (Str × Str)
  | [] => if pat = [] then some ([], []) else none
  | c :: rest =>
    if pat.isPrefixOf (c :: rest) then some ([], (c :: rest).drop pat.length)
    else (breakAt pat rest).map (fun pr => (c :: pr.1, pr.2))

/-- `urljoin(base_url, m)` for the root-relative references (`/explore/...`)
the extractor produces: scheme and netloc of the base, then the reference.
A base without a scheme yields the reference itself. -/
def urljoinRoot (base rel : Str) : Str :=
  match breakAt (str "://") base with
  | some (scheme, after) =>
    scheme ++ str "://" ++ after.takeWhile (· ≠ '/') ++ rel
  | none => rel

/-! ## Note dicts and the extraction pipeline -/

/-- The note dict built by the extractor (fixed key set). -/
structure NoteInfo where
  content_id : Str
  note_id : Str
  url : Str
  has_valid_token : Bool
  tokens : List Str
  preview_title : Str
  xsec_token : Option Str
  xsec_source : Option Str
  complete_params : Bool
deriving DecidableEq

/-- `all_matches`: the five primary patterns in order, root-relative
matches resolved against `base_url`, deduplicated.  (CPython iterates the
`set` in an unspecified order; the embedding fixes first-insertion
order.) -/
def allMatches (html base_url : Str) : List Str :=
  [p1Match, p2Match, p3Match, p4Match, p5Match].foldl
    (fun acc pm =>
      (findAll pm html).foldl
        (fun acc2 m =>
          let full_url := if m.head? = some '/' then urljoinRoot base_url m
            else m
          if acc2.contains full_url then acc2 else acc2 ++ [full_url])
        acc)
    []

/-- The note dict built for one primary `full_url` (lines 198–214 of
`xiaohongshu.py`). -/
def mkPrimaryNote (full_url note_id : Str) : NoteInfo :=
  let query_params := parseQsl (queryOf full_url)
  let has_xsec_token := (getFirst query_params (str "xsec_token")).isSome
  let has_xsec_source := (getFirst query_params (str "xsec_source")).isSome
  { content_id := note_id
    note_id := note_id
    url := full_url
    has_valid_token := has_xsec_token && has_xsec_source
    tokens := keysOf query_params
    preview_title := str "小红书笔记 " ++ note_id
    xsec_token := getFirst query_params (str "xsec_token")
    xsec_source := getFirst query_params (str "xsec_source")
    complete_params := has_xsec_token && has_xsec_source }

/-- The primary processing loop over `list(all_matches)[:max_links]`:
keep URLs whose parsed id exists and has length ≥ 20 (`小红书ID通常是24位，
但至少要20位`). -/
def primaryNotes (html base_url : Str) (max_links : Nat) : List NoteInfo :=
  ((allMatches html base_url).take max_links).filterMap fun full_url =>
    match parse_content_id_from_url full_url with
    | some note_id =>
      if 20 ≤ note_id.length then some (mkPrimaryNote full_url note_id)
      else none
    | none => none

/-- One step of Python's stable sort with
`key=lambda x: x["complete_params"], reverse=True`: insert before the first
element that does not strictly precede (`True` sorts before `False`,
original order kept among equal keys). -/
def insertCompleteDesc (x : NoteInfo) : List NoteInfo → List NoteInfo
  | [] => [x]
  | y :: ys =>
    if y.complete_params && !x.complete_params then
      y :: insertCompleteDesc x ys
    else x :: y :: ys

/-- `notes.sort(key=lambda x: x["complete_params"], reverse=True)` —
a stable descending sort on the boolean key. -/
def sortCompleteDesc (l : List NoteInfo) : List NoteInfo :=
  l.foldr insertCompleteDesc []

/-- The note dict built by `_fallback_extract_links` for one id. -/
def mkFallbackNote (note_id : Str) : NoteInfo :=
  { content_id := note_id
    note_id := note_id
    url := str "https://www.xiaohongshu.com/explore/" ++ note_id
    has_valid_token := false
    tokens := []
    preview_title := str "小红书笔记 " ++ note_id
    xsec_token := none
    xsec_source := none
    complete_params := false }

/-- Fallback pattern 1: `explore/([a-f0-9]{20,})` — greedy run of at least
20 (case-insensitive) hex digits. -/
def f1Match (s : Str) : Option (Str × Str) :=
  match matchLitCI (str "explore/") s with
  | none => none
  | some (_, r1) =>
    if (r1.takeWhile isHexDigitCI).length < 20 then none
    else some (r1.takeWhile isHexDigitCI,
      r1.drop (r1.takeWhile isHexDigitCI).length)

/-- Fallback pattern 2: `/explore/([a-f0-9]+)\?`. -/
def f2Match (s : Str) : Option (Str × Str) :=
  match matchLitCI (str "/explore/") s with
  | none => none
  | some (_, r1) =>
    if r1.takeWhile isHexDigitCI = [] then none
    else match r1.drop (r1.takeWhile isHexDigitCI).length with
      | '?' :: r2 => some (r1.takeWhile isHexDigitCI, r2)
      | _ => none

/-- Fallback pattern 3: `xiaohongshu\.com/explore/([a-f0-9]+)`. -/
def f3Match (s : Str) : Option (Str × Str) :=
  match matchLitCI (str "xiaohongshu.com/explore/") s with
  | none => none
  | some (_, r1) =>
    if r1.takeWhile isHexDigitCI = [] then none
    else some (r1.takeWhile isHexDigitCI,
      r1.drop (r1.takeWhile isHexDigitCI).length)

/-- The inner `for note_id in matches` loop of `_fallback_extract_links`:
state is `(found_ids, notes)`; `break` fires when, right after an append,
`len(notes) >= max_links`. -/
def fallbackInner (max_links : Nat) :
    List Str → List Str × List NoteInfo → List Str × List NoteInfo
  | [], st => st
  | note_id :: rest, (found_ids, notes) =>
    if note_id ≠ [] ∧ 20 ≤ note_id.length ∧ ¬ found_ids.contains note_id then
      let found' := found_ids ++ [note_id]
      let notes' := notes ++ [mkFallbackNote note_id]
      if max_links ≤ notes'.length then (found', notes')
      else fallbackInner max_links rest (found', notes')
    else fallbackInner max_links rest (found_ids, notes)

/-- `_fallback_extract_links(html, base_url, max_links)`; `base_url` is a
parameter of the source function but unused by it. -/
def fallback_extract_links (html base_url : Str) (max_links : Nat) :
    List NoteInfo :=
  (([f1Match, f2Match, f3Match].foldl
    (fun st pm => fallbackInner max_links (findAll pm html) st)
    (([] : List Str), ([] : List NoteInfo))).2).take max_links

/-- `_extract_xiaohongshu_notes_from_html(html, base_url, max_links)`:
length guard, primary cascade, automatic fallback when the primary match
set is empty, filtering, and the final stable sort. -/
def extract_xiaohongshu_notes_from_html (html base_url : Str)
    (max_links : Nat) : List NoteInfo :=
  if html = [] ∨ html.length < 1000 then []
  else if allMatches html base_url = [] then
    fallback_extract_links html base_url max_links
  else sortCompleteDesc (primaryNotes html base_url max_links)

/-- The `notes` list of `_extract_xiaohongshu_notes_from_html` as it stands
just before the final `notes.sort(...)` (identical to the function's result
except that the sort has not yet been applied). -/
def preSortNotes (html base_url : Str) (max_links : Nat) : List NoteInfo :=
  if html = [] ∨ html.length < 1000 then []
  else if allMatches html base_url = [] then
    fallback_extract_links html base_url max_links
  else primaryNotes html base_url max_links

/-! ## Structural lemmas about the extraction pipeline -/

/-- Inserting a `complete_params = true` note puts it in front (it precedes
everything already inserted). -/
lemma insertCompleteDesc_of_complete (x : NoteInfo) (l : List NoteInfo)
    (hx : x.complete_params = true) : insertCompleteDesc x l = x :: l := by
  cases l with
  | nil => rfl
  | cons y ys => simp [insertCompleteDesc, hx]

/-- Inserting a `complete_params = false` note walks past the `true` block
and lands in front of the `false` block. -/
lemma insertCompleteDesc_of_incomplete (x : NoteInfo) (A B : List NoteInfo)
    (hx : x.complete_params = false)
    (hA : ∀ y ∈ A, y.complete_params = true)
    (hB : ∀ y ∈ B, y.complete_params = false) :
    insertCompleteDesc x (A ++ B) = A ++ x :: B := by
  induction A with
  | nil =>
    cases B with
    | nil => rfl
    | cons y ys =>
      have hy := hB y (by simp)
      simp [insertCompleteDesc, hy]
  | cons a A ih =>
    have ha := hA a (by simp)
    have hA' : ∀ y ∈ A, y.complete_params = true := fun y hy => hA y (by simp [hy])
    simp [insertCompleteDesc, ha, hx, ih hA']

/-- The stable descending sort on the boolean key is exactly the stable
partition: `complete_params = true` entries first, original order preserved
inside each block. -/
lemma sortCompleteDesc_eq_partition (l : List NoteInfo) :
    sortCompleteDesc l =
      l.filter (fun n => n.complete_params) ++
        l.filter (fun n => !n.complete_params) := by
  induction l with
  | nil => rfl
  | cons x l ih =>
    show insertCompleteDesc x (sortCompleteDesc l) = _
    rw [ih]
    by_cases hx : x.complete_params
    · rw [insertCompleteDesc_of_complete x _ hx]
      simp [List.filter_cons, hx]
    · have hx' : x.complete_params = false := by simpa using hx
      rw [insertCompleteDesc_of_incomplete x _ _ hx'
        (fun y hy => by simpa using (List.of_mem_filter hy))
        (fun y hy => by simpa using (List.of_mem_filter hy))]
      simp [List.filter_cons, hx']

/-- Sorting does not change the number of notes. -/
lemma length_insertCompleteDesc (x : NoteInfo) (l : List NoteInfo) :
    (insertCompleteDesc x l).length = l.length + 1 := by
  induction l with
  | nil => rfl
  | cons y ys ih =>
    by_cases h : y.complete_params && !x.complete_params <;>
      simp [insertCompleteDesc, h, ih]

lemma length_sortCompleteDesc (l : List NoteInfo) :
    (sortCompleteDesc l).length = l.length := by
  induction l with
  | nil => rfl
  | cons x l ih =>
    show (insertCompleteDesc x (sortCompleteDesc l)).length = _
    rw [length_insertCompleteDesc, ih]
    simp

/-- Every capture produced by the `re.findall` driver satisfies any
property the matcher guarantees of its captures. -/
lemma findAllAux_capture {m : Str → Option (Str × Str)} {P : Str → Prop}
    (hm : ∀ s cap r, m s = some (cap, r) → P cap) :
    ∀ fuel s cap, cap ∈ findAllAux m fuel s → P cap := by
  intro fuel
  induction fuel with
  | zero => intro s cap h; simp [findAllAux] at h
  | succ n ih =>
    intro s cap h
    cases s with
    | nil => simp [findAllAux] at h
    | cons c rest =>
      simp only [findAllAux] at h
      cases hms : m (c :: rest) with
      | none => simp only [hms] at h; exact ih rest cap h
      | some pr =>
        simp only [hms, List.mem_cons] at h
        rcases h with h | h
        · exact h ▸ hm (c :: rest) pr.1 pr.2 (by rw [hms])
        · exact ih pr.2 cap h

lemma findAll_capture {m : Str → Option (Str × Str)} {P : Str → Prop}
    (hm : ∀ s cap r, m s = some (cap, r) → P cap) :
    ∀ s cap, cap ∈ findAll m s → P cap :=
  fun s => findAllAux_capture hm s.length s

/-- The three fallback matchers only capture (case-insensitive) hex runs. -/
lemma fallback_matcher_captures_hex :
    ∀ pm ∈ [f1Match, f2Match, f3Match],
      ∀ s cap r, pm s = some (cap, r) → cap.all isHexDigitCI = true := by
  intro pm hpm s cap r h
  have hex_of_takeWhile : ∀ (u : Str),
      (u.takeWhile isHexDigitCI).all isHexDigitCI = true := by
    intro u
    rw [List.all_eq_true]
    intro c hc
    exact List.mem_takeWhile_imp hc
  simp only [List.mem_cons, List.not_mem_nil, or_false] at hpm
  rcases hpm with rfl | rfl | rfl
  · unfold f1Match at h
    split at h
    · exact absurd h (by simp)
    · rename_i a r1 _
      split at h
      · exact absurd h (by simp)
      · obtain ⟨rfl, rfl⟩ : r1.takeWhile isHexDigitCI = cap ∧ _ = r := by
          simpa using h
        exact hex_of_takeWhile r1
  · unfold f2Match at h
    split at h
    · exact absurd h (by simp)
    · rename_i a r1 _
      split at h
      · exact absurd h (by simp)
      · split at h
        · rename_i r2 hdrop
          obtain ⟨rfl, rfl⟩ : r1.takeWhile isHexDigitCI = cap ∧ r2 = r := by
            simpa using h
          exact hex_of_takeWhile r1
        · exact absurd h (by simp)
  · unfold f3Match at h
    split at h
    · exact absurd h (by simp)
    · rename_i a r1 _
      split at h
      · exact absurd h (by simp)
      · obtain ⟨rfl, rfl⟩ : r1.takeWhile isHexDigitCI = cap ∧ _ = r := by
          simpa using h
        exact hex_of_takeWhile r1

/-- Invariant propagation through the inner fallback loop: if a property
holds of every already-collected note and of every note freshly built from
a ≥20-character hex id, it holds of everything the loop returns. -/
lemma fallbackInner_shape (max_links : Nat) (Q : NoteInfo → Prop)
    (hQ : ∀ id : Str, 20 ≤ id.length → id.all isHexDigitCI = true →
      Q (mkFallbackNote id)) :
    ∀ ids : List Str, (∀ id ∈ ids, id.all isHexDigitCI = true) →
      ∀ st : List Str × List NoteInfo, (∀ n ∈ st.2, Q n) →
        ∀ n ∈ (fallbackInner max_links ids st).2, Q n := by
  intro ids
  induction ids with
  | nil => intro _ st hst n hn; exact hst n hn
  | cons id rest ih =>
    intro hids st hst n hn
    obtain ⟨found, notes⟩ := st
    rw [fallbackInner] at hn
    by_cases hg : id ≠ [] ∧ 20 ≤ id.length ∧ ¬ found.contains id
    · rw [if_pos hg] at hn
      have hnotes' : ∀ m ∈ notes ++ [mkFallbackNote id], Q m := by
        intro m hm
        rcases List.mem_append.mp hm with hm | hm
        · exact hst m hm
        · rw [List.mem_singleton.mp hm]
          exact hQ id hg.2.1 (hids id (by simp))
      by_cases hb : max_links ≤ (notes ++ [mkFallbackNote id]).length
      · rw [if_pos hb] at hn
        exact hnotes' n hn
      · rw [if_neg hb] at hn
        exact ih (fun i hi => hids i (List.mem_cons_of_mem _ hi)) _ hnotes' n hn
    · rw [if_neg hg] at hn
      exact ih (fun i hi => hids i (List.mem_cons_of_mem _ hi)) ⟨found, notes⟩
        hst n hn

/-- Every note returned by `_fallback_extract_links` is the canonical
token-free note built from some ≥20-character hex id. -/
lemma fallback_shape (html base_url : Str) (max_links : Nat) :
    ∀ n ∈ fallback_extract_links html base_url max_links,
      ∃ id : Str, 20 ≤ id.length ∧ id.all isHexDigitCI = true ∧
        n = mkFallbackNote id := by
  intro n hn
  unfold fallback_extract_links at hn
  have hn' := List.mem_of_mem_take hn
  simp only [List.foldl_cons, List.foldl_nil] at hn'
  have hhex : ∀ pm ∈ [f1Match, f2Match, f3Match], ∀ id ∈ findAll pm html,
      id.all isHexDigitCI = true := by
    intro pm hpm id hid
    exact findAll_capture (fallback_matcher_captures_hex pm hpm) html id hid
  have h0 : ∀ m ∈ (([] : List Str), ([] : List NoteInfo)).2,
      (∃ id : Str, 20 ≤ id.length ∧ id.all isHexDigitCI = true ∧
        m = mkFallbackNote id) := by
    intro m hm
    simp at hm
  have h1 := fallbackInner_shape max_links _
    (fun id hl hh => ⟨id, hl, hh, rfl⟩) (findAll f1Match html)
    (hhex f1Match (by simp)) _ h0
  have h2 := fallbackInner_shape max_links _
    (fun id hl hh => ⟨id, hl, hh, rfl⟩) (findAll f2Match html)
    (hhex f2Match (by simp)) _ h1
  have h3 := fallbackInner_shape max_links _
    (fun id hl hh => ⟨id, hl, hh, rfl⟩) (findAll f3Match html)
    (hhex f3Match (by simp)) _ h2
  exact h3 n hn'

/-! ## Claim theorems: extraction pipeline -/

/-- C9: any input strictly shorter than 1000 characters yields an empty
extraction result, regardless of content, `base_url` and `max_links` (the
guard `if not html or len(html) < 1000`). -/
theorem short_input_yields_no_links (html base_url : Str) (max_links : Nat)
    (h : html.length < 1000) :
    extract_xiaohongshu_notes_from_html html base_url max_links = [] := by
  unfold extract_xiaohongshu_notes_from_html
  rw [if_pos (Or.inr h)]

/-- Witness for C9 at a concrete short input. -/
theorem short_input_yields_no_links_witness :
    (str "<html><body>no notes yet</body></html>").length < 1000 ∧
    extract_xiaohongshu_notes_from_html
      (str "<html><body>no notes yet</body></html>")
      (str "https://www.xiaohongshu.com/explore") 5 = [] :=
  ⟨by decide,
   short_input_yields_no_links _ _ 5 (by decide)⟩

/-- C2 (amended): a captured identifier is kept by the fallback strategy
only if its length is at least 20 (the code's filter is `len(note_id) >=
20`, not an exact-24 check); every kept identifier is a hex string. -/
theorem fallback_keeps_only_long_ids (html base_url : Str) (max_links : Nat)
    (n : NoteInfo) (hn : n ∈ fallback_extract_links html base_url max_links) :
    20 ≤ n.note_id.length ∧ n.note_id.all isHexDigitCI = true := by
  obtain ⟨id, hlen, hhex, rfl⟩ := fallback_shape html base_url max_links n hn
  exact ⟨hlen, hhex⟩

/-- Counterexample to C2 as stated: a 20-character identifier (length ≠ 24)
is kept by the fallback strategy. -/
theorem fallback_keeps_a_20_char_id :
    (fallback_extract_links
        (str "xiaohongshu.com/explore/aabbccddee0011223344 tail")
        (str "https://www.xiaohongshu.com/explore") 20).map
      (fun n => n.note_id) = [str "aabbccddee0011223344"] ∧
    (str "aabbccddee0011223344").length = 20 ∧
    ¬ (str "aabbccddee0011223344").length = 24 := by
  refine ⟨by decide, by decide, by decide⟩

/-- Witness for the amended C2 at a concrete fallback note. -/
theorem fallback_keeps_only_long_ids_witness :
    mkFallbackNote (str "aabbccddee0011223344") ∈
      fallback_extract_links
        (str "xiaohongshu.com/explore/aabbccddee0011223344 tail")
        (str "https://www.xiaohongshu.com/explore") 20 ∧
    20 ≤ (mkFallbackNote (str "aabbccddee0011223344")).note_id.length ∧
    (mkFallbackNote (str "aabbccddee0011223344")).note_id.all isHexDigitCI =
      true :=
  ⟨by decide,
   fallback_keeps_only_long_ids
     (str "xiaohongshu.com/explore/aabbccddee0011223344 tail")
     (str "https://www.xiaohongshu.com/explore") 20
     (mkFallbackNote (str "aabbccddee0011223344")) (by decide)⟩

/-- C10: every fallback note is token-free: no valid token, no complete
params, empty token list, `None` for both `xsec_token` and `xsec_source`,
and a bare `https://www.xiaohongshu.com/explore/<id>` URL with no query
string. -/
theorem fallback_notes_are_token_free (html base_url : Str)
    (max_links : Nat) (n : NoteInfo)
    (hn : n ∈ fallback_extract_links html base_url max_links) :
    n.has_valid_token = false ∧ n.complete_params = false ∧ n.tokens = [] ∧
    n.xsec_token = none ∧ n.xsec_source = none ∧
    n.url = str "https://www.xiaohongshu.com/explore/" ++ n.note_id ∧
    '?' ∉ n.url := by
  obtain ⟨id, hlen, hhex, rfl⟩ := fallback_shape html base_url max_links n hn
  refine ⟨rfl, rfl, rfl, rfl, rfl, rfl, ?_⟩
  intro hq
  rcases List.mem_append.mp hq with hq | hq
  · exact absurd hq (by decide)
  · exact absurd (List.all_eq_true.mp hhex '?' hq) (by decide)

/-- Witness for C10: a page whose only occurrence of the id carries token
parameters still yields a token-free fallback note. -/
theorem fallback_notes_are_token_free_witness :
    mkFallbackNote (str "682d7a17000000000f0338e2") ∈
      fallback_extract_links
        (str "[](https://www.xiaohongshu.com/explore/682d7a17000000000f0338e2?xsec_token=ABn=&xsec_source=pc_feed)")
        (str "https://www.xiaohongshu.com/explore") 20 ∧
    ((mkFallbackNote (str "682d7a17000000000f0338e2")).has_valid_token =
        false ∧
      (mkFallbackNote (str "682d7a17000000000f0338e2")).complete_params =
        false ∧
      (mkFallbackNote (str "682d7a17000000000f0338e2")).tokens = [] ∧
      (mkFallbackNote (str "682d7a17000000000f0338e2")).xsec_token = none ∧
      (mkFallbackNote (str "682d7a17000000000f0338e2")).xsec_source = none ∧
      (mkFallbackNote (str "682d7a17000000000f0338e2")).url =
        str "https://www.xiaohongshu.com/explore/" ++
          (mkFallbackNote (str "682d7a17000000000f0338e2")).note_id ∧
      '?' ∉ (mkFallbackNote (str "682d7a17000000000f0338e2")).url) :=
  ⟨by decide,
   fallback_notes_are_token_free
     (str "[](https://www.xiaohongshu.com/explore/682d7a17000000000f0338e2?xsec_token=ABn=&xsec_source=pc_feed)")
     (str "https://www.xiaohongshu.com/explore") 20
     (mkFallbackNote (str "682d7a17000000000f0338e2")) (by decide)⟩

/-- C3 (amended, for inputs that pass the 1000-character guard): the
fallback runs exactly when the primary pattern cascade produced no match;
otherwise the result is the sorted primary processing. -/
theorem fallback_invoked_iff_primary_empty (html base_url : Str)
    (max_links : Nat) (h : 1000 ≤ html.length) :
    extract_xiaohongshu_notes_from_html html base_url max_links =
      if allMatches html base_url = [] then
        fallback_extract_links html base_url max_links
      else sortCompleteDesc (primaryNotes html base_url max_links) := by
  unfold extract_xiaohongshu_notes_from_html
  rw [if_neg]
  rintro (rfl | hlen)
  · simp at h
  · omega

/-- Witness for the amended C3 at a concrete 1000-character input. -/
theorem fallback_invoked_iff_primary_empty_witness :
    1000 ≤ (List.replicate 1000 'z' : Str).length ∧
    extract_xiaohongshu_notes_from_html (List.replicate 1000 'z')
        (str "https://www.xiaohongshu.com/explore") 20 =
      (if allMatches (List.replicate 1000 'z')
          (str "https://www.xiaohongshu.com/explore") = [] then
        fallback_extract_links (List.replicate 1000 'z')
          (str "https://www.xiaohongshu.com/explore") 20
      else sortCompleteDesc (primaryNotes (List.replicate 1000 'z')
          (str "https://www.xiaohongshu.com/explore") 20)) :=
  ⟨by simp,
   fallback_invoked_iff_primary_empty _ _ 20 (by simp)⟩

/-- Counterexample to C3 as stated: on this input the primary cascade
yields zero links and the fallback would yield a note, but the fallback is
not invoked (the result is empty) because the input is below the
1000-character guard. -/
theorem short_input_skips_fallback :
    allMatches (str "xiaohongshu.com/explore/aabbccddee0011223344")
      (str "https://www.xiaohongshu.com/explore") = [] ∧
    fallback_extract_links (str "xiaohongshu.com/explore/aabbccddee0011223344")
      (str "https://www.xiaohongshu.com/explore") 20 ≠ [] ∧
    extract_xiaohongshu_notes_from_html
      (str "xiaohongshu.com/explore/aabbccddee0011223344")
      (str "https://www.xiaohongshu.com/explore") 20 = [] := by
  refine ⟨by decide, by decide, by decide⟩

/-- C4: the extraction result never exceeds `max_links` entries and is the
stable partition of the pre-sort note list: all `complete_params = true`
entries first, relative order preserved inside each block. -/
theorem extraction_bounded_and_stably_partitioned (html base_url : Str)
    (max_links : Nat) :
    (extract_xiaohongshu_notes_from_html html base_url max_links).length ≤
      max_links ∧
    extract_xiaohongshu_notes_from_html html base_url max_links =
      (preSortNotes html base_url max_links).filter
          (fun n => n.complete_params) ++
        (preSortNotes html base_url max_links).filter
          (fun n => !n.complete_params) := by
  unfold extract_xiaohongshu_notes_from_html preSortNotes
  split_ifs with h1 h2
  · simp
  · have hall : ∀ n ∈ fallback_extract_links html base_url max_links,
        n.complete_params = false := by
      intro n hn
      obtain ⟨id, _, _, rfl⟩ := fallback_shape html base_url max_links n hn
      rfl
    constructor
    · unfold fallback_extract_links
      exact List.length_take_le _ _
    · rw [List.filter_eq_nil_iff.mpr (fun n hn => by simp [hall n hn]),
        List.filter_eq_self.mpr (fun n hn => by simp [hall n hn])]
      simp
  · constructor
    · rw [length_sortCompleteDesc]
      unfold primaryNotes
      exact le_trans (List.length_filterMap_le _ _) (List.length_take_le _ _)
    · exact sortCompleteDesc_eq_partition _

/-! ## Claim theorems: login-status analysis and token cache -/

/-- The cascade over the two counts, proved for arbitrary counts. -/
lemma analyzeFromCounts_cases (s l : Nat) :
    ((analyzeFromCounts s l).status = str "success" ∧
        (analyzeFromCounts s l).confidence = str "high" ↔ s > l ∧ s ≥ 2) ∧
    ((analyzeFromCounts s l).status = str "likely_logged_in" ∧
        (analyzeFromCounts s l).confidence = str "medium" ↔
      ¬(s > l ∧ s ≥ 2) ∧ s > 0 ∧ l = 0) ∧
    ((analyzeFromCounts s l).status = str "not_logged_in" ∧
        (analyzeFromCounts s l).confidence = str "high" ↔
      ¬(s > l ∧ s ≥ 2) ∧ ¬(s > 0 ∧ l = 0) ∧ l > s) ∧
    ((analyzeFromCounts s l).status = str "uncertain" ∧
        (analyzeFromCounts s l).confidence = str "low" ↔
      ¬(s > l ∧ s ≥ 2) ∧ ¬(s > 0 ∧ l = 0) ∧ ¬(l > s)) := by
  unfold analyzeFromCounts
  split_ifs with h1 h2 h3
  · exact ⟨iff_of_true ⟨rfl, rfl⟩ h1,
      iff_of_false
        (fun h => absurd h.1
          (by decide : ¬ str "success" = str "likely_logged_in"))
        (fun h => h.1 h1),
      iff_of_false
        (fun h => absurd h.1
          (by decide : ¬ str "success" = str "not_logged_in"))
        (fun h => h.1 h1),
      iff_of_false
        (fun h => absurd h.1 (by decide : ¬ str "success" = str "uncertain"))
        (fun h => h.1 h1)⟩
  · exact ⟨iff_of_false
        (fun h => absurd h.1
          (by decide : ¬ str "likely_logged_in" = str "success")) h1,
      iff_of_true ⟨rfl, rfl⟩ ⟨h1, h2⟩,
      iff_of_false
        (fun h => absurd h.1
          (by decide : ¬ str "likely_logged_in" = str "not_logged_in"))
        (fun h => h.2.1 h2),
      iff_of_false
        (fun h => absurd h.1
          (by decide : ¬ str "likely_logged_in" = str "uncertain"))
        (fun h => h.2.1 h2)⟩
  · exact ⟨iff_of_false
        (fun h => absurd h.1
          (by decide : ¬ str "not_logged_in" = str "success")) h1,
      iff_of_false
        (fun h => absurd h.1
          (by decide : ¬ str "not_logged_in" = str "likely_logged_in"))
        (fun h => h2 h.2),
      iff_of_true ⟨rfl, rfl⟩ ⟨h1, h2, h3⟩,
      iff_of_false
        (fun h => absurd h.1
          (by decide : ¬ str "not_logged_in" = str "uncertain"))
        (fun h => h.2.2 h3)⟩
  · exact ⟨iff_of_false
        (fun h => absurd h.1
          (by decide : ¬ str "uncertain" = str "success")) h1,
      iff_of_false
        (fun h => absurd h.1
          (by decide : ¬ str "uncertain" = str "likely_logged_in"))
        (fun h => h2 h.2),
      iff_of_false
        (fun h => absurd h.1
          (by decide : ¬ str "uncertain" = str "not_logged_in"))
        (fun h => h3 h.2.2),
      iff_of_true ⟨rfl, rfl⟩ ⟨h1, h2, h3⟩⟩

/-- C5: for every page content and site name, the analysis counts each
indicator at most once (membership, not multiplicity, via `successCount` /
`loginCount`) and classifies by the cascade: `success`/`high` iff
`s > l ∧ s ≥ 2`; else `likely_logged_in`/`medium` iff `s > 0 ∧ l = 0`;
else `not_logged_in`/`high` iff `l > s`; else `uncertain`/`low`. -/
theorem analyze_login_status_classification (html site_name : Str) :
    ((analyze_login_status html site_name).status = str "success" ∧
        (analyze_login_status html site_name).confidence = str "high" ↔
      successCount html site_name > loginCount html site_name ∧
        successCount html site_name ≥ 2) ∧
    ((analyze_login_status html site_name).status = str "likely_logged_in" ∧
        (analyze_login_status html site_name).confidence = str "medium" ↔
      ¬(successCount html site_name > loginCount html site_name ∧
          successCount html site_name ≥ 2) ∧
        successCount html site_name > 0 ∧ loginCount html site_name = 0) ∧
    ((analyze_login_status html site_name).status = str "not_logged_in" ∧
        (analyze_login_status html site_name).confidence = str "high" ↔
      ¬(successCount html site_name > loginCount html site_name ∧
          successCount html site_name ≥ 2) ∧
        ¬(successCount html site_name > 0 ∧ loginCount html site_name = 0) ∧
        loginCount html site_name > successCount html site_name) ∧
    ((analyze_login_status html site_name).status = str "uncertain" ∧
        (analyze_login_status html site_name).confidence = str "low" ↔
      ¬(successCount html site_name > loginCount html site_name ∧
          successCount html site_name ≥ 2) ∧
        ¬(successCount html site_name > 0 ∧ loginCount html site_name = 0) ∧
        ¬(loginCount html site_name > successCount html site_name)) :=
  analyzeFromCounts_cases (successCount html site_name)
    (loginCount html site_name)

/-- C6: the token cache is single-slot with TTL semantics — `put` replaces
the whole slot; an immediate `get` returns the stored token; and in
general `get` at time `now` returns the token stored at time `s` exactly
when `now - s < ttl` (300 s), behaving as empty from `ttl` seconds on. -/
theorem token_cache_single_slot_ttl (st : TokenCacheState) (t : TokenDict)
    (s now : Int) :
    cache_token st t s = ⟨some t, s⟩ ∧
    get_cached_token (cache_token st t s) s = some t ∧
    get_cached_token (cache_token st t s) now =
      (if now - s < cacheTtl then some t else none) := by
  refine ⟨rfl, ?_, ?_⟩
  · unfold get_cached_token cache_token
    rw [if_pos]
    simp [cacheTtl]
  · unfold get_cached_token cache_token
    split_ifs <;> rfl

/-! ## Profile paths (`AuthCrawlerService.get_profile_path`)

`get_profile_path` returns `str((Path("./auth_profiles") / site_name)
.resolve())`.  `pathlib` drops empty and `.` components when parsing;
joining an absolute right operand discards the base; `resolve()` prefixes
the process working directory and collapses `..` lexically (the filesystem
is modelled symlink-free).  The working directory is abstracted as a list
of path components `cwd`. -/

/-- Component list of a POSIX path string: split on `/`, drop empty and
`.` components (as `pathlib` does). -/
def pathParts (s : Str) : List Str :=
  (splitOnChar '/' s).filter (fun p => !p.isEmpty && !(p == str "."))

/-- Whether `pathlib` treats the operand as absolute. -/
def isAbsPath : Str → Bool
  | '/' :: _ => true
  | _ => false

/-- One step of lexical `..` collapsing (at the root, `..` stays at the
root, as on POSIX). -/
def resolveStep (acc : List Str) (comp : Str) : List Str :=
  if comp = str ".." then acc.dropLast else acc ++ [comp]

/-- Join components with `/` (the body of `str()` on an absolute path). -/
def renderParts : List Str → Str
  | [] => []
  | [p] => p
  | p :: ps => p ++ '/' :: renderParts ps

/-- `get_profile_path(site_name)`:
`str((Path("./auth_profiles") / site_name).resolve())` over the abstract
working directory `cwd`. -/
def get_profile_path (cwd : List Str) (site_name : Str) : Str :=
  '/' :: renderParts
    ((if isAbsPath site_name then pathParts site_name
      else cwd ++ [str "auth_profiles"] ++ pathParts site_name).foldl
      resolveStep [])

/-- A plain site name: nonempty, no separator, not a dot component. -/
def validSiteName (s : Str) : Prop :=
  s ≠ [] ∧ '/' ∉ s ∧ s ≠ str "." ∧ s ≠ str ".."

instance (s : Str) : Decidable (validSiteName s) := by
  unfold validSiteName; infer_instance

/-! ### Path lemmas -/

lemma takeWhile_append_cons (p : Char → Bool) (a : Str) (c : Char) (b : Str)
    (ha : ∀ x ∈ a, p x = true) (hc : p c = false) :
    (a ++ c :: b).takeWhile p = a := by
  induction a with
  | nil => simp [List.takeWhile, hc]
  | cons x a ih =>
    have hx := ha x (by simp)
    simp only [List.cons_append, List.takeWhile_cons, hx, if_true]
    rw [ih (fun y hy => ha y (by simp [hy]))]

lemma dropWhile_append_cons (p : Char → Bool) (a : Str) (c : Char) (b : Str)
    (ha : ∀ x ∈ a, p x = true) (hc : p c = false) :
    (a ++ c :: b).dropWhile p = c :: b := by
  induction a with
  | nil => simp [List.dropWhile, hc]
  | cons x a ih =>
    have hx := ha x (by simp)
    simp only [List.cons_append, List.dropWhile_cons, hx, if_true]
    exact ih (fun y hy => ha y (by simp [hy]))

lemma splitOnChar_of_not_mem (sep : Char) (s : Str) (h : sep ∉ s) :
    splitOnChar sep s = [s] := by
  induction s with
  | nil => rfl
  | cons c rest ih =>
    have hc : c ≠ sep := fun e => h (by simp [e])
    have hrest : sep ∉ rest := fun e => h (by simp [e])
    rw [splitOnChar]
    simp only [hc, if_false, ih hrest]

lemma splitOnChar_append (sep : Char) (a b : Str) (ha : sep ∉ a) :
    splitOnChar sep (a ++ sep :: b) = a :: splitOnChar sep b := by
  induction a with
  | nil => simp [splitOnChar]
  | cons c rest ih =>
    have hc : c ≠ sep := fun e => ha (by simp [e])
    have hrest : sep ∉ rest := fun e => ha (by simp [e])
    rw [List.cons_append, splitOnChar]
    simp only [hc, if_false, ih hrest]

lemma pathParts_of_valid (s : Str) (h : validSiteName s) : pathParts s = [s] := by
  obtain ⟨h1, h2, h3, _⟩ := h
  unfold pathParts
  rw [splitOnChar_of_not_mem '/' s h2]
  have he : s.isEmpty = false := by
    cases s with
    | nil => exact absurd rfl h1
    | cons c rest => rfl
  have hb : (s == str ".") = false := by
    rw [beq_eq_false_iff_ne]
    exact h3
  simp [List.filter, he, hb]

lemma isAbsPath_of_valid (s : Str) (h : validSiteName s) :
    isAbsPath s = false := by
  obtain ⟨h1, h2, _, _⟩ := h
  cases s with
  | nil => exact absurd rfl h1
  | cons c rest =>
    have hc : c ≠ '/' := fun e => h2 (by simp [e])
    unfold isAbsPath
    split
    · rename_i rest' heq
      injection heq with hch _
      exact absurd hch hc
    · rfl

lemma foldl_resolveStep_snoc (init : List Str) (A : List Str) (a : Str)
    (ha : a ≠ str "..") :
    (A ++ [a]).foldl resolveStep init = A.foldl resolveStep init ++ [a] := by
  rw [List.foldl_append]
  simp [List.foldl, resolveStep, ha]

/-- The rendered path ends with its last component behind a separator. -/
lemma render_snoc_shape (R : List Str) (s : Str) :
    renderParts (R ++ [s]) = s ∨
      ∃ x : Str, renderParts (R ++ [s]) = x ++ '/' :: s := by
  induction R with
  | nil => exact Or.inl rfl
  | cons p R ih =>
    cases R with
    | nil => exact Or.inr ⟨p, rfl⟩
    | cons q R' =>
      have hstep : renderParts ((p :: q :: R') ++ [s]) =
          p ++ '/' :: renderParts ((q :: R') ++ [s]) := rfl
      rcases ih with h | ⟨x, hx⟩
      · exact Or.inr ⟨p, by rw [hstep, h]⟩
      · exact Or.inr ⟨p ++ '/' :: x, by rw [hstep, hx]; simp⟩

/-- The absolute rendering has the shape `x ++ '/' :: s`. -/
lemma abs_render_snoc_shape (R : List Str) (s : Str) :
    ∃ x : Str, '/' :: renderParts (R ++ [s]) = x ++ '/' :: s := by
  rcases render_snoc_shape R s with h | ⟨x, hx⟩
  · exact ⟨[], by rw [h]; rfl⟩
  · exact ⟨'/' :: x, by rw [hx]; rfl⟩

/-- The final `/`-separated segment of a rendered path. -/
def lastSlashSeg (r : Str) : Str :=
  (r.reverse.takeWhile (fun c => c != '/')).reverse

lemma lastSlashSeg_spec (x s : Str) (hs : '/' ∉ s) :
    lastSlashSeg (x ++ '/' :: s) = s := by
  unfold lastSlashSeg
  have hrev : (x ++ '/' :: s).reverse = s.reverse ++ '/' :: x.reverse := by
    simp
  rw [hrev, takeWhile_append_cons _ _ _ _
    (fun y hy => by
      have : y ∈ s := List.mem_reverse.mp hy
      have : y ≠ '/' := fun e => hs (e ▸ this)
      simpa using this)
    (by simp)]
  simp

/-! ## Claim theorems: profile paths -/

/-- C7 (amended): for plain site names (nonempty, no `/`, not `.` or `..`)
the profile path determines the site name — two distinct plain names never
share a path.  (Determinism and idempotence are definitional: the embedding
is a pure function of `cwd` and `site_name`.) -/
theorem get_profile_path_injective (cwd : List Str) (s1 s2 : Str)
    (h1 : validSiteName s1) (h2 : validSiteName s2) (hne : s1 ≠ s2) :
    get_profile_path cwd s1 ≠ get_profile_path cwd s2 := by
  intro heq
  have shape : ∀ s : Str, validSiteName s →
      get_profile_path cwd s =
        '/' :: renderParts
          ((cwd ++ [str "auth_profiles"]).foldl resolveStep [] ++ [s]) := by
    intro s hs
    unfold get_profile_path
    rw [isAbsPath_of_valid s hs]
    simp only [Bool.false_eq_true, if_false, pathParts_of_valid s hs]
    rw [show cwd ++ [str "auth_profiles"] ++ [s] =
        (cwd ++ [str "auth_profiles"]) ++ [s] from rfl,
      foldl_resolveStep_snoc [] (cwd ++ [str "auth_profiles"]) s hs.2.2.2]
  rw [shape s1 h1, shape s2 h2] at heq
  obtain ⟨x1, hx1⟩ :=
    abs_render_snoc_shape ((cwd ++ [str "auth_profiles"]).foldl resolveStep []) s1
  obtain ⟨x2, hx2⟩ :=
    abs_render_snoc_shape ((cwd ++ [str "auth_profiles"]).foldl resolveStep []) s2
  have : s1 = s2 := by
    have e : x1 ++ '/' :: s1 = x2 ++ '/' :: s2 := by rw [← hx1, ← hx2, heq]
    calc s1 = lastSlashSeg (x1 ++ '/' :: s1) :=
          (lastSlashSeg_spec x1 s1 h1.2.1).symm
      _ = lastSlashSeg (x2 ++ '/' :: s2) := by rw [e]
      _ = s2 := lastSlashSeg_spec x2 s2 h2.2.1
  exact hne this

/-- Counterexample to C7 as stated: the distinct site names `"x"` and
`"./x"` resolve to the same profile path. -/
theorem profile_path_collision :
    get_profile_path [str "srv"] (str "x") =
      get_profile_path [str "srv"] (str "./x") ∧
    str "x" ≠ str "./x" := by
  refine ⟨by decide, by decide⟩

/-- Witness for the amended C7 at concrete plain names. -/
theorem get_profile_path_injective_witness :
    validSiteName (str "xiaohongshu_com") ∧ validSiteName (str "medium_com") ∧
    str "xiaohongshu_com" ≠ str "medium_com" ∧
    get_profile_path [str "srv", str "app"] (str "xiaohongshu_com") ≠
      get_profile_path [str "srv", str "app"] (str "medium_com") :=
  ⟨by decide, by decide, by decide,
   get_profile_path_injective [str "srv", str "app"]
     (str "xiaohongshu_com") (str "medium_com")
     (by decide) (by decide) (by decide)⟩

/-! ## Round-trip infrastructure: `unquote_plus ∘ quote_plus` on ASCII -/

/-- All characters of a string are ASCII code points. -/
def asciiStr (s : Str) : Prop := ∀ c ∈ s, c.toNat < 128

/-- The token a character of the source string turns into after
`quote_plus` + `+`-replacement + percent-scanning. -/
def tokOf (c : Char) : Sum Char Nat :=
  if isAlwaysSafe c then Sum.inl c
  else if c = ' ' then Sum.inl ' '
  else Sum.inr c.toNat

/-- Reading one token back as a character. -/
def detok : Sum Char Nat → Char
  | Sum.inl c => c
  | Sum.inr b => Char.ofNat b

lemma quoteChar_of_safe (c : Char) (hc : isAlwaysSafe c = true) :
    quoteChar c = [c] := by
  unfold quoteChar
  rw [if_pos hc]

lemma safe_char_ne (c : Char) (hc : isAlwaysSafe c = true) :
    c ≠ '%' ∧ c ≠ '+' ∧ c ≠ '&' ∧ c ≠ '=' ∧ c ≠ '#' :=
  ⟨fun e => absurd (e ▸ hc) (by decide),
   fun e => absurd (e ▸ hc) (by decide),
   fun e => absurd (e ▸ hc) (by decide),
   fun e => absurd (e ▸ hc) (by decide),
   fun e => absurd (e ▸ hc) (by decide)⟩

lemma hexDigitU_props : ∀ n : Nat, n < 16 →
    hexVal (hexDigitU n) = some n ∧ hexDigitU n ≠ '+' ∧ hexDigitU n ≠ '%' ∧
    hexDigitU n ≠ '&' ∧ hexDigitU n ≠ '=' ∧ hexDigitU n ≠ '#' := by decide

lemma quoteChar_pct (c : Char) (hs : isAlwaysSafe c = false) (hsp : c ≠ ' ')
    (ha : c.toNat < 128) :
    quoteChar c =
      ['%', hexDigitU (c.toNat / 16), hexDigitU (c.toNat % 16)] := by
  unfold quoteChar
  rw [if_neg (by simp [hs]), if_neg hsp]
  unfold utf8Encode
  rw [if_pos ha]
  rfl

lemma quoteChar_ne_nil (c : Char) (ha : c.toNat < 128) : quoteChar c ≠ [] := by
  by_cases hs : isAlwaysSafe c
  · rw [quoteChar_of_safe c hs]; simp
  · by_cases hsp : c = ' '
    · subst hsp; decide
    · rw [quoteChar_pct c (by simpa using hs) hsp ha]; simp

lemma quotePlus_ne_nil (v : Str) (hv : v ≠ []) (ha : asciiStr v) :
    quotePlus v ≠ [] := by
  cases v with
  | nil => exact absurd rfl hv
  | cons c rest =>
    show quoteChar c ++ quotePlus rest ≠ []
    have := quoteChar_ne_nil c (ha c (by simp))
    intro h
    exact this (List.append_eq_nil.mp h).1

/-- No separator-relevant character ever appears in the `quote_plus`
encoding of an ASCII string. -/
lemma quotePlus_sep_free (v : Str) (ha : asciiStr v) :
    ∀ x ∈ quotePlus v, x ≠ '&' ∧ x ≠ '=' ∧ x ≠ '#' := by
  intro x hx
  unfold quotePlus at hx
  rw [List.mem_flatMap] at hx
  obtain ⟨c, hc, hxc⟩ := hx
  have hca := ha c hc
  by_cases hs : isAlwaysSafe c
  · rw [quoteChar_of_safe c hs] at hxc
    obtain ⟨_, _, h3, h4, h5⟩ := safe_char_ne c hs
    rw [List.mem_singleton.mp hxc]
    exact ⟨h3, h4, h5⟩
  · by_cases hsp : c = ' '
    · subst hsp
      rw [show quoteChar ' ' = ['+'] from by decide] at hxc
      rw [List.mem_singleton.mp hxc]
      refine ⟨by decide, by decide, by decide⟩
    · rw [quoteChar_pct c (by simpa using hs) hsp hca] at hxc
      have h16a : c.toNat / 16 < 16 := by omega
      have h16b : c.toNat % 16 < 16 := by omega
      obtain ⟨_, _, _, ha1, ha2, ha3⟩ := hexDigitU_props _ h16a
      obtain ⟨_, _, _, hb1, hb2, hb3⟩ := hexDigitU_props _ h16b
      simp only [List.mem_cons, List.not_mem_nil, or_false] at hxc
      rcases hxc with rfl | rfl | rfl
      · refine ⟨by decide, by decide, by decide⟩
      · exact ⟨ha1, ha2, ha3⟩
      · exact ⟨hb1, hb2, hb3⟩

/-- One scanning step on a literal (non-`%`) character. -/
lemma qTokensAux_cons_lit (f : Nat) (c : Char) (rest : Str) (hc : c ≠ '%') :
    qTokensAux (f + 1) (c :: rest) = Sum.inl c :: qTokensAux f rest := by
  rw [qTokensAux.eq_def]
  dsimp only
  rw [if_neg hc]

/-- One scanning step on a valid percent escape. -/
lemma qTokensAux_pct (f : Nat) (c1 c2 : Char) (rest : Str) (a b : Nat)
    (h1 : hexVal c1 = some a) (h2 : hexVal c2 = some b) :
    qTokensAux (f + 1) ('%' :: c1 :: c2 :: rest) =
      Sum.inr (16 * a + b) :: qTokensAux f rest := by
  rw [qTokensAux.eq_def]
  dsimp only
  rw [if_pos rfl, h1, h2]

/-- Scanning the (`+`-replaced) `quote_plus` encoding of an ASCII string
yields exactly one token per source character. -/
lemma qTokensAux_quote (v : Str) (hv : asciiStr v) :
    ∀ fuel : Nat, (quotePlus v).length ≤ fuel →
      qTokensAux fuel
          ((quotePlus v).map (fun c => if c = '+' then ' ' else c)) =
        v.map tokOf := by
  induction v with
  | nil =>
    intro fuel _
    cases fuel <;> rfl
  | cons c v ih =>
    intro fuel hfuel
    have hca := hv c (by simp)
    have hv' : asciiStr v := fun x hx => hv x (by simp [hx])
    have hq : quotePlus (c :: v) = quoteChar c ++ quotePlus v := rfl
    rw [hq] at hfuel ⊢
    rw [List.map_append]
    by_cases hs : isAlwaysSafe c
    · rw [quoteChar_of_safe c hs] at hfuel ⊢
      obtain ⟨hpct, hplus, _, _, _⟩ := safe_char_ne c hs
      have hmap : ([c].map (fun x => if x = '+' then ' ' else x)) = [c] := by
        simp [hplus]
      rw [hmap]
      simp only [List.length_append, List.length_cons, List.length_nil] at hfuel
      cases fuel with
      | zero => omega
      | succ f =>
        rw [List.singleton_append, qTokensAux_cons_lit f c _ hpct,
          ih hv' f (by omega)]
        simp [tokOf, hs]
    · by_cases hsp : c = ' '
      · subst hsp
        rw [show quoteChar ' ' = ['+'] from by decide] at hfuel ⊢
        have hmap : (['+'].map (fun x => if x = '+' then ' ' else x)) =
            [' '] := by simp
        rw [hmap]
        simp only [List.length_append, List.length_cons, List.length_nil]
          at hfuel
        cases fuel with
        | zero => omega
        | succ f =>
          rw [List.singleton_append, qTokensAux_cons_lit f ' ' _ (by decide),
            ih hv' f (by omega)]
          simp [tokOf]
      · have hs' : isAlwaysSafe c = false := by simpa using hs
        rw [quoteChar_pct c hs' hsp hca] at hfuel ⊢
        have h16a : c.toNat / 16 < 16 := by omega
        have h16b : c.toNat % 16 < 16 := by omega
        obtain ⟨hval1, hp1, _, _, _, _⟩ := hexDigitU_props _ h16a
        obtain ⟨hval2, hp2, _, _, _, _⟩ := hexDigitU_props _ h16b
        have hmap : (['%', hexDigitU (c.toNat / 16),
            hexDigitU (c.toNat % 16)].map
              (fun x => if x = '+' then ' ' else x)) =
            ['%', hexDigitU (c.toNat / 16), hexDigitU (c.toNat % 16)] := by
          simp [hp1, hp2]
        rw [hmap]
        simp only [List.length_append, List.length_cons, List.length_nil]
          at hfuel
        cases fuel with
        | zero => omega
        | succ f =>
          have hshape : ['%', hexDigitU (c.toNat / 16),
              hexDigitU (c.toNat % 16)] ++
                (quotePlus v).map (fun x => if x = '+' then ' ' else x) =
              '%' :: hexDigitU (c.toNat / 16) :: hexDigitU (c.toNat % 16) ::
                (quotePlus v).map (fun x => if x = '+' then ' ' else x) := rfl
          rw [hshape, qTokensAux_pct f _ _ _ _ _ hval1 hval2,
            ih hv' f (by omega)]
          have hsum : 16 * (c.toNat / 16) + c.toNat % 16 = c.toNat := by omega
          simp [tokOf, hs', hsp, hsum]

/-- One decoding step on an ASCII byte. -/
lemma utf8DecodeAux_ascii_step (f : Nat) (b : Nat) (bs : List Nat)
    (hb : b < 128) :
    utf8DecodeAux (f + 1) (b :: bs) = Char.ofNat b :: utf8DecodeAux f bs := by
  rw [utf8DecodeAux.eq_def]
  dsimp only
  rw [if_pos hb]

/-- Decoding a run of ASCII bytes is byte-wise `Char.ofNat`. -/
lemma utf8DecodeAux_ascii (fuel : Nat) :
    ∀ bs : List Nat, bs.length ≤ fuel → (∀ b ∈ bs, b < 128) →
      utf8DecodeAux fuel bs = bs.map Char.ofNat := by
  induction fuel with
  | zero =>
    intro bs hlen _
    rw [List.length_eq_zero.mp (Nat.le_zero.mp hlen)]
    rfl
  | succ f ih =>
    intro bs hlen hascii
    cases bs with
    | nil => rfl
    | cons b bs' =>
      rw [utf8DecodeAux_ascii_step f b bs' (hascii b (by simp)),
        ih bs' (by simpa using hlen) (fun x hx => hascii x (by simp [hx]))]
      rfl

lemma utf8Decode_ascii (bs : List Nat) (h : ∀ b ∈ bs, b < 128) :
    utf8Decode bs = bs.map Char.ofNat :=
  utf8DecodeAux_ascii bs.length bs le_rfl h

/-- Regrouping over an all-ASCII token stream decodes token-wise. -/
lemma qDecodeAux_ascii (T : List (Sum Char Nat)) :
    ∀ acc : List Nat, (∀ b : Nat, Sum.inr b ∈ T → b < 128) →
      (∀ b ∈ acc, b < 128) →
      qDecodeAux acc T = acc.reverse.map Char.ofNat ++ T.map detok := by
  induction T with
  | nil =>
    intro acc _ hacc
    show utf8Decode acc.reverse = _
    rw [utf8Decode_ascii _ (fun b hb => hacc b (List.mem_reverse.mp hb))]
    simp
  | cons t T ih =>
    intro acc hT hacc
    cases t with
    | inl c =>
      show utf8Decode acc.reverse ++ c :: qDecodeAux [] T = _
      rw [utf8Decode_ascii _ (fun b hb => hacc b (List.mem_reverse.mp hb)),
        ih [] (fun b hb => hT b (by simp [hb])) (by simp)]
      simp [detok]
    | inr b =>
      show qDecodeAux (b :: acc) T = _
      rw [ih (b :: acc) (fun x hx => hT x (by simp [hx]))
        (by
          intro x hx
          rcases List.mem_cons.mp hx with rfl | hx
          · exact hT x (by simp)
          · exact hacc x hx)]
      simp [detok]

/-- Reading one token back recovers the source character. -/
lemma detok_tokOf (c : Char) : detok (tokOf c) = c := by
  unfold tokOf
  split_ifs with h1 h2
  · rfl
  · rw [h2]; rfl
  · show Char.ofNat c.toNat = c
    exact Char.ofNat_toNat c

/-- The ASCII round trip: `unquote_plus (quote_plus v) = v`. -/
lemma unquotePlus_quotePlus (v : Str) (hv : asciiStr v) :
    unquotePlus (quotePlus v) = v := by
  unfold unquotePlus qTokens
  rw [List.length_map, qTokensAux_quote v hv (quotePlus v).length le_rfl,
    qDecodeAux_ascii _ []
      (by
        intro b hb
        rw [List.mem_map] at hb
        obtain ⟨c, hc, htok⟩ := hb
        have ht : tokOf c = Sum.inr b := htok
        by_cases hs : isAlwaysSafe c
        · rw [tokOf, if_pos hs] at ht
          exact absurd ht (by simp)
        · by_cases hsp : c = ' '
          · rw [tokOf, if_neg (by simpa using hs), if_pos hsp] at ht
            exact absurd ht (by simp)
          · rw [tokOf, if_neg (by simpa using hs), if_neg hsp] at ht
            injection ht with hb'
            exact hb' ▸ hv c hc)
      (by simp)]
  rw [List.map_map]
  simp only [List.reverse_nil, List.map_nil, List.nil_append]
  have : ∀ c ∈ v, (detok ∘ tokOf) c = c := fun c _ => detok_tokOf c
  rw [List.map_congr_left this]
  simp

/-! ## `parse_qs ∘ urlencode` is the identity on well-formed params -/

lemma neChar_true {a c : Char} (h : c ≠ a) : neChar a c = true := by
  simp [neChar, h]

lemma neChar_self (a : Char) : neChar a a = false := by simp [neChar]

lemma takeWhile_of_all (p : Char → Bool) (l : Str)
    (h : ∀ x ∈ l, p x = true) : l.takeWhile p = l := by
  induction l with
  | nil => rfl
  | cons c rest ih =>
    rw [List.takeWhile_cons, if_pos (h c (by simp)),
      ih (fun x hx => h x (by simp [hx]))]

/-- Splitting `k ++ '=' :: v` at the first `=` when `k` has none. -/
lemma splitFirstEq_append (k v : Str) (hk : '=' ∉ k) :
    splitFirstEq (k ++ '=' :: v) = (k, some v) := by
  have hall : ∀ x ∈ k, neChar '=' x = true :=
    fun x hx => neChar_true (fun e => hk (e ▸ hx))
  unfold splitFirstEq
  rw [dropWhile_append_cons _ k '=' v hall (neChar_self '='),
    takeWhile_append_cons _ k '=' v hall (neChar_self '=')]
  rfl

/-- Evaluation of the `parse_qsl` chunk handler on a well-formed
`k=quote_plus(v)` chunk. -/
lemma parseQsl_chunk_eval (k v : Str) (hkr : unquotePlus k = k)
    (hkeq : '=' ∉ k) (hvne : v ≠ []) (hva : asciiStr v) :
    (if (k ++ '=' :: quotePlus v) = [] then none
     else match splitFirstEq (k ++ '=' :: quotePlus v) with
       | (_, none) => none
       | (_, some []) => none
       | (k', some v') => some (unquotePlus k', unquotePlus v')) =
      some (k, v) := by
  rw [if_neg (by simp), splitFirstEq_append k (quotePlus v) hkeq]
  obtain ⟨qc, qrest, hq⟩ : ∃ a l, quotePlus v = a :: l := by
    cases hqp : quotePlus v with
    | nil => exact absurd hqp (quotePlus_ne_nil v hvne hva)
    | cons a l => exact ⟨a, l, rfl⟩
  rw [hq]
  show some (unquotePlus k, unquotePlus (qc :: qrest)) = some (k, v)
  rw [hkr, ← hq, unquotePlus_quotePlus v hva]

/-- `parse_qs` recovers the params dict from its `urlencode`d form when the
keys are quote-invariant (`quote_plus k = k`, as all literal keys here are)
and free of separators, and the values are nonempty ASCII strings. -/
lemma parseQsl_urlencodeAssoc (ps : TokenDict)
    (hk : ∀ kv ∈ ps, quotePlus kv.1 = kv.1 ∧ unquotePlus kv.1 = kv.1 ∧
      kv.1 ≠ [] ∧ '&' ∉ kv.1 ∧ '=' ∉ kv.1)
    (hv : ∀ kv ∈ ps, kv.2 ≠ [] ∧ asciiStr kv.2) :
    parseQsl (urlencodeAssoc ps) = ps := by
  induction ps with
  | nil => rfl
  | cons kv rest ih =>
    obtain ⟨hkq, hkr, hkne, hkamp, hkeq⟩ := hk kv (by simp)
    obtain ⟨hvne, hva⟩ := hv kv (by simp)
    have hsegamp : '&' ∉ kv.1 ++ '=' :: quotePlus kv.2 := by
      intro hmem
      rcases List.mem_append.mp hmem with h | h
      · exact hkamp h
      · rcases List.mem_cons.mp h with h | h
        · exact absurd h.symm (by decide)
        · exact (quotePlus_sep_free kv.2 hva '&' h).1 rfl
    cases rest with
    | nil =>
      show parseQsl (quotePlus kv.1 ++ '=' :: quotePlus kv.2) = [kv]
      rw [hkq]
      unfold parseQsl
      rw [splitOnChar_of_not_mem '&' _ hsegamp, List.filterMap_cons,
        List.filterMap_nil]
      rw [parseQsl_chunk_eval kv.1 kv.2 hkr hkeq hvne hva]
    | cons kv2 rest2 =>
      show parseQsl
          (quotePlus kv.1 ++ '=' :: quotePlus kv.2 ++
            '&' :: urlencodeAssoc (kv2 :: rest2)) = kv :: kv2 :: rest2
      rw [hkq]
      have hassoc : kv.1 ++ '=' :: quotePlus kv.2 ++
          '&' :: urlencodeAssoc (kv2 :: rest2) =
          (kv.1 ++ '=' :: quotePlus kv.2) ++
            '&' :: urlencodeAssoc (kv2 :: rest2) := by
        simp
      unfold parseQsl
      rw [hassoc, splitOnChar_append '&' _ _ hsegamp, List.filterMap_cons,
        parseQsl_chunk_eval kv.1 kv.2 hkr hkeq hvne hva]
      have ihr := ih (fun x hx => hk x (by simp [hx]))
        (fun x hx => hv x (by simp [hx]))
      unfold parseQsl at ihr
      rw [ihr]

/-- Any character of an `urlencode`d dict comes from a quoted key, a quoted
value, or is one of the separators `=`/`&`. -/
lemma urlencodeAssoc_sep (ps : TokenDict) (x : Char)
    (hx : x ∈ urlencodeAssoc ps) :
    (∃ kv ∈ ps, x ∈ quotePlus kv.1 ∨ x ∈ quotePlus kv.2) ∨ x = '=' ∨
      x = '&' := by
  induction ps with
  | nil => simp [urlencodeAssoc] at hx
  | cons kv rest ih =>
    cases rest with
    | nil =>
      rw [urlencodeAssoc.eq_def] at hx
      dsimp only at hx
      rcases List.mem_append.mp hx with h | h
      · exact Or.inl ⟨kv, by simp, Or.inl h⟩
      · rcases List.mem_cons.mp h with h | h
        · exact Or.inr (Or.inl h)
        · exact Or.inl ⟨kv, by simp, Or.inr h⟩
    | cons kv2 rest2 =>
      rw [urlencodeAssoc.eq_def] at hx
      dsimp only at hx
      rcases List.mem_append.mp hx with h | h
      · rcases List.mem_append.mp h with h | h
        · exact Or.inl ⟨kv, by simp, Or.inl h⟩
        · rcases List.mem_cons.mp h with h | h
          · exact Or.inr (Or.inl h)
          · exact Or.inl ⟨kv, by simp, Or.inr h⟩
      · rcases List.mem_cons.mp h with h | h
        · exact Or.inr (Or.inr h)
        · rcases ih h with ⟨kv', hkv', hin⟩ | h'
          · exact Or.inl ⟨kv', by simp [hkv'], hin⟩
          · exact Or.inr h'

/-- `urlparse(...).query` of `base?Q` recovers `Q` when `base` is free of
`?`/`#` and `Q` is free of `#`. -/
lemma queryOf_append (base Q : Str) (hq : '?' ∉ base) (h1 : '#' ∉ base)
    (h2 : '#' ∉ Q) : queryOf (base ++ '?' :: Q) = Q := by
  unfold queryOf stripFragment
  have hall : ∀ x ∈ base ++ '?' :: Q, neChar '#' x = true := by
    intro x hx
    rcases List.mem_append.mp hx with h | h
    · exact neChar_true (fun e => h1 (e ▸ h))
    · rcases List.mem_cons.mp h with rfl | h
      · exact neChar_true (by decide)
      · exact neChar_true (fun e => h2 (e ▸ h))
  rw [takeWhile_of_all (neChar '#') _ hall,
    dropWhile_append_cons (neChar '?') base '?' Q
      (fun x hx => neChar_true (fun e => hq (e ▸ hx))) (neChar_self '?')]
  rfl

lemma getFirst_nil (k : Str) : getFirst [] k = none := rfl

lemma getFirst_cons_eq (k v : Str) (rest : TokenDict) :
    getFirst ((k, v) :: rest) k = some v := by
  unfold getFirst
  rw [List.find?_cons_of_pos _ (by simp)]
  rfl

lemma getFirst_cons_ne (k k' v : Str) (rest : TokenDict) (h : k ≠ k') :
    getFirst ((k, v) :: rest) k' = getFirst rest k' := by
  unfold getFirst
  rw [List.find?_cons_of_neg _ (by simp [h])]

lemma getFirst_eq_none_of_all (ps : TokenDict) (k : Str)
    (h : ∀ kv ∈ ps, kv.1 ≠ k) : getFirst ps k = none := by
  unfold getFirst
  rw [List.find?_eq_none.mpr (fun kv hkv => by simp [h kv hkv])]
  rfl

/-- Parsing back the query string of a built note URL recovers the exact
params dict. -/
lemma parse_query_of_built_url (note_id : Str) (params : TokenDict)
    (hid : '?' ∉ note_id ∧ '#' ∉ note_id)
    (hk : ∀ kv ∈ params, quotePlus kv.1 = kv.1 ∧ unquotePlus kv.1 = kv.1 ∧
      kv.1 ≠ [] ∧ '&' ∉ kv.1 ∧ '=' ∉ kv.1 ∧ '#' ∉ kv.1)
    (hv : ∀ kv ∈ params, kv.2 ≠ [] ∧ asciiStr kv.2) :
    parseQsl (queryOf ((str "https://www.xiaohongshu.com/explore/" ++
      note_id) ++ '?' :: urlencodeAssoc params)) = params := by
  have hbase_q : '?' ∉ str "https://www.xiaohongshu.com/explore/" ++
      note_id := by
    intro h
    rcases List.mem_append.mp h with h | h
    · exact absurd h (by decide)
    · exact hid.1 h
  have hbase_h : '#' ∉ str "https://www.xiaohongshu.com/explore/" ++
      note_id := by
    intro h
    rcases List.mem_append.mp h with h | h
    · exact absurd h (by decide)
    · exact hid.2 h
  have hq_h : '#' ∉ urlencodeAssoc params := by
    intro h
    rcases urlencodeAssoc_sep params '#' h with ⟨kv, hkv, hin⟩ | h'
    · obtain ⟨hkq, _, _, _, _, hkh⟩ := hk kv hkv
      rcases hin with hin | hin
      · exact hkh (hkq ▸ hin)
      · exact (quotePlus_sep_free kv.2 (hv kv hkv).2 '#' hin).2.2 rfl
    · rcases h' with h' | h' <;> exact absurd h' (by decide)
  rw [queryOf_append _ _ hbase_q hbase_h hq_h,
    parseQsl_urlencodeAssoc params
      (fun kv hkv => ⟨(hk kv hkv).1, (hk kv hkv).2.1, (hk kv hkv).2.2.1,
        (hk kv hkv).2.2.2.1, (hk kv hkv).2.2.2.2.1⟩) hv]

lemma getFirst_some_mem (ps : TokenDict) (key w : Str)
    (h : getFirst ps key = some w) : ∃ kv ∈ ps, kv.1 = key ∧ kv.2 = w := by
  unfold getFirst at h
  cases hf : ps.find? (fun kv => kv.1 = key) with
  | none => rw [hf] at h; simp at h
  | some kv =>
    rw [hf] at h
    have hmem := List.mem_of_find?_eq_some hf
    have hp := List.find?_some hf
    simp only [decide_eq_true_eq] at hp
    exact ⟨kv, hmem, hp, by simpa using h⟩

/-- The literal key facts used by the round trip, for each of the three
keys the code handles. -/
lemma keyFacts_xsec_token :
    quotePlus (str "xsec_token") = str "xsec_token" ∧
    unquotePlus (str "xsec_token") = str "xsec_token" ∧
    str "xsec_token" ≠ ([] : Str) ∧ '&' ∉ str "xsec_token" ∧
    '=' ∉ str "xsec_token" ∧ '#' ∉ str "xsec_token" := by decide

lemma keyFacts_xsec_source :
    quotePlus (str "xsec_source") = str "xsec_source" ∧
    unquotePlus (str "xsec_source") = str "xsec_source" ∧
    str "xsec_source" ≠ ([] : Str) ∧ '&' ∉ str "xsec_source" ∧
    '=' ∉ str "xsec_source" ∧ '#' ∉ str "xsec_source" := by decide

lemma keyFacts_channel_id :
    quotePlus (str "channel_id") = str "channel_id" ∧
    unquotePlus (str "channel_id") = str "channel_id" ∧
    str "channel_id" ≠ ([] : Str) ∧ '&' ∉ str "channel_id" ∧
    '=' ∉ str "channel_id" ∧ '#' ∉ str "channel_id" := by decide

/-! ## Claim theorems: token round trip -/

/-- C1 (amended): extracting token parameters from the URL built from a
token dict recovers the very same key→first-value mapping, provided the
dict carries both `xsec_token` and `xsec_source`, uses only the three keys
the code handles, has nonempty ASCII values, and the note id is free of
URL metacharacters. -/
theorem token_url_roundtrip (note_id : Str) (t : TokenDict)
    (hid : '?' ∉ note_id ∧ '#' ∉ note_id)
    (hkeys : ∀ kv ∈ t, kv.1 = str "xsec_token" ∨ kv.1 = str "xsec_source" ∨
      kv.1 = str "channel_id")
    (hvals : ∀ kv ∈ t, kv.2 ≠ [] ∧ asciiStr kv.2)
    (hxt : (getFirst t (str "xsec_token")).isSome = true)
    (hxs : (getFirst t (str "xsec_source")).isSome = true) :
    ∃ u : TokenDict,
      extract_token_from_url (build_note_url_with_token note_id t) = some u ∧
      ∀ k : Str, getFirst u k = getFirst t k := by
  obtain ⟨va, hva⟩ := Option.isSome_iff_exists.mp hxt
  obtain ⟨vb, hvb⟩ := Option.isSome_iff_exists.mp hxs
  obtain ⟨kva, hkva_mem, _, hkva2⟩ :=
    getFirst_some_mem t (str "xsec_token") va hva
  obtain ⟨kvb, hkvb_mem, _, hkvb2⟩ :=
    getFirst_some_mem t (str "xsec_source") vb hvb
  have hva_props : va ≠ [] ∧ asciiStr va := hkva2 ▸ hvals kva hkva_mem
  have hvb_props : vb ≠ [] ∧ asciiStr vb := hkvb2 ▸ hvals kvb hkvb_mem
  cases hci : getFirst t (str "channel_id") with
  | none =>
    refine ⟨[(str "xsec_token", va), (str "xsec_source", vb)], ?_, ?_⟩
    · have hurl : build_note_url_with_token note_id t =
          (str "https://www.xiaohongshu.com/explore/" ++ note_id) ++
            '?' :: urlencodeAssoc
              [(str "xsec_token", va), (str "xsec_source", vb)] := by
        unfold build_note_url_with_token
        rw [hva, hvb, hci]
        simp
      rw [hurl]
      unfold extract_token_from_url
      rw [parse_query_of_built_url note_id
        [(str "xsec_token", va), (str "xsec_source", vb)] hid
        (by
          intro kv hkv
          rcases List.mem_cons.mp hkv with rfl | hkv
          · exact keyFacts_xsec_token
          · rcases List.mem_cons.mp hkv with rfl | hkv
            · exact keyFacts_xsec_source
            · simp at hkv)
        (by
          intro kv hkv
          rcases List.mem_cons.mp hkv with rfl | hkv
          · exact hva_props
          · rcases List.mem_cons.mp hkv with rfl | hkv
            · exact hvb_props
            · simp at hkv)]
      dsimp only
      rw [getFirst_cons_eq, getFirst_cons_ne _ _ _ _ (by decide),
        getFirst_cons_eq, getFirst_cons_ne _ _ _ _ (by decide),
        getFirst_cons_ne _ _ _ _ (by decide), getFirst_nil]
      simp
    · intro k
      by_cases hk1 : k = str "xsec_token"
      · subst hk1
        rw [getFirst_cons_eq, hva]
      · by_cases hk2 : k = str "xsec_source"
        · subst hk2
          rw [getFirst_cons_ne _ _ _ _ (by decide), getFirst_cons_eq, hvb]
        · rw [getFirst_cons_ne _ _ _ _ (fun e => hk1 e.symm),
            getFirst_cons_ne _ _ _ _ (fun e => hk2 e.symm), getFirst_nil]
          by_cases hk3 : k = str "channel_id"
          · subst hk3
            exact hci.symm
          · refine (getFirst_eq_none_of_all t k ?_).symm
            intro kv hkv
            rcases hkeys kv hkv with h | h | h
            · exact fun e => hk1 (by rw [← e, h])
            · exact fun e => hk2 (by rw [← e, h])
            · exact fun e => hk3 (by rw [← e, h])
  | some vc =>
    obtain ⟨kvc, hkvc_mem, _, hkvc2⟩ :=
      getFirst_some_mem t (str "channel_id") vc hci
    have hvc_props : vc ≠ [] ∧ asciiStr vc := hkvc2 ▸ hvals kvc hkvc_mem
    refine ⟨[(str "xsec_token", va), (str "xsec_source", vb),
      (str "channel_id", vc)], ?_, ?_⟩
    · have hurl : build_note_url_with_token note_id t =
          (str "https://www.xiaohongshu.com/explore/" ++ note_id) ++
            '?' :: urlencodeAssoc
              [(str "xsec_token", va), (str "xsec_source", vb),
                (str "channel_id", vc)] := by
        unfold build_note_url_with_token
        rw [hva, hvb, hci]
        simp
      rw [hurl]
      unfold extract_token_from_url
      rw [parse_query_of_built_url note_id
        [(str "xsec_token", va), (str "xsec_source", vb),
          (str "channel_id", vc)] hid
        (by
          intro kv hkv
          rcases List.mem_cons.mp hkv with rfl | hkv
          · exact keyFacts_xsec_token
          · rcases List.mem_cons.mp hkv with rfl | hkv
            · exact keyFacts_xsec_source
            · rcases List.mem_cons.mp hkv with rfl | hkv
              · exact keyFacts_channel_id
              · simp at hkv)
        (by
          intro kv hkv
          rcases List.mem_cons.mp hkv with rfl | hkv
          · exact hva_props
          · rcases List.mem_cons.mp hkv with rfl | hkv
            · exact hvb_props
            · rcases List.mem_cons.mp hkv with rfl | hkv
              · exact hvc_props
              · simp at hkv)]
      dsimp only
      rw [getFirst_cons_eq, getFirst_cons_ne _ _ _ _ (by decide),
        getFirst_cons_eq, getFirst_cons_ne _ _ _ _ (by decide),
        getFirst_cons_ne _ _ _ _ (by decide), getFirst_cons_eq]
      simp
    · intro k
      by_cases hk1 : k = str "xsec_token"
      · subst hk1
        rw [getFirst_cons_eq, hva]
      · by_cases hk2 : k = str "xsec_source"
        · subst hk2
          rw [getFirst_cons_ne _ _ _ _ (by decide), getFirst_cons_eq, hvb]
        · by_cases hk3 : k = str "channel_id"
          · subst hk3
            rw [getFirst_cons_ne _ _ _ _ (by decide),
              getFirst_cons_ne _ _ _ _ (by decide), getFirst_cons_eq, hci]
          · rw [getFirst_cons_ne _ _ _ _ (fun e => hk1 e.symm),
              getFirst_cons_ne _ _ _ _ (fun e => hk2 e.symm),
              getFirst_cons_ne _ _ _ _ (fun e => hk3 e.symm), getFirst_nil]
            refine (getFirst_eq_none_of_all t k ?_).symm
            intro kv hkv
            rcases hkeys kv hkv with h | h | h
            · exact fun e => hk1 (by rw [← e, h])
            · exact fun e => hk2 (by rw [← e, h])
            · exact fun e => hk3 (by rw [← e, h])

instance (s : Str) : Decidable (asciiStr s) := by
  unfold asciiStr; infer_instance

/-- Counterexample to C1 as stated: for a token dict holding only
`xsec_token`, the extracted dict additionally carries the defaulted
`xsec_source = "pc_feed"`, so it is not the original dict. -/
theorem token_roundtrip_adds_default_source :
    getFirst [(str "xsec_token", str "abc")] (str "xsec_source") = none ∧
    extract_token_from_url (build_note_url_with_token
        (str "682d7a17000000000f0338e2") [(str "xsec_token", str "abc")]) =
      some [(str "xsec_token", str "abc"),
        (str "xsec_source", str "pc_feed")] ∧
    extract_token_from_url (build_note_url_with_token
        (str "682d7a17000000000f0338e2") [(str "xsec_token", str "abc")]) ≠
      some [(str "xsec_token", str "abc")] := by
  refine ⟨by decide, by decide, by decide⟩

/-- Witness for the amended C1 at a concrete token dict (note the `=` in
the token value, which must survive percent-encoding). -/
theorem token_url_roundtrip_witness :
    (('?' ∉ str "682d7a17000000000f0338e2" ∧
        '#' ∉ str "682d7a17000000000f0338e2") ∧
      (∀ kv ∈ [(str "xsec_token", str "ABn="),
          (str "xsec_source", str "pc_feed")],
        kv.1 = str "xsec_token" ∨ kv.1 = str "xsec_source" ∨
          kv.1 = str "channel_id") ∧
      (∀ kv ∈ [(str "xsec_token", str "ABn="),
          (str "xsec_source", str "pc_feed")],
        kv.2 ≠ [] ∧ asciiStr kv.2)) ∧
    ∃ u : TokenDict,
      extract_token_from_url (build_note_url_with_token
        (str "682d7a17000000000f0338e2")
        [(str "xsec_token", str "ABn="),
          (str "xsec_source", str "pc_feed")]) = some u ∧
      ∀ k : Str, getFirst u k =
        getFirst [(str "xsec_token", str "ABn="),
          (str "xsec_source", str "pc_feed")] k :=
  ⟨⟨⟨by decide, by decide⟩, by decide, by decide⟩,
   token_url_roundtrip (str "682d7a17000000000f0338e2")
     [(str "xsec_token", str "ABn="), (str "xsec_source", str "pc_feed")]
     ⟨by decide, by decide⟩ (by decide) (by decide) (by decide) (by decide)⟩
